import Mathlib

/-
Shallow embedding of the C++ blocklist module in src/hosts/BlockListManager.h
(class BlocklistManager).  Strings are modelled as lists of characters;
std::shared_ptr address handles are modelled as indices into the address
pool, which is a list of interned address strings in insertion order
(reference equality of handles = equality of indices).  The std::unordered_map
blocklist is modelled as an association list in which insertion replaces any
previous binding of the same key, find returns the unique binding, and size
is the number of distinct keys.  Filesystem interaction (stat, open) is
modelled by passing the results of those calls as Option-valued parameters:
none models a failing call.  ::tolower in the C locale is ASCII lowercasing,
which is exactly Lean's Char.toLower.
-/

abbrev Str := List Char

/-- Conversion from a Lean string literal to the character-list model. -/
def str (s : String) : Str := s.data

/-- Model of struct FileInfo: a timespec modTime (seconds, nanoseconds) plus
an off_t fileSize. -/
structure FileInfo where
  modTimeSec : Int
  modTimeNsec : Int
  fileSize : Int
deriving DecidableEq

/-- Model of the mutable state of class BlocklistManager: the blocklist map,
the address pool, and the last recorded file metadata.  A pooled address
handle is a position in addressPool. -/
structure BlocklistManager where
  blocklist : List (Str × Nat)
  addressPool : List Str
  lastFileInfo : FileInfo
deriving DecidableEq

/-- Dereference a pooled address handle (shared_ptr dereference in the
source); out-of-range handles, which never arise, give the empty string. -/
def derefAddr : List Str → Nat → Str
  | [], _ => []
  | a :: _, 0 => a
  | _ :: rest, n + 1 => derefAddr rest n

/-- Model of getOrCreateAddress: look the address up in the pool and return
the existing handle on a hit, otherwise append the address to the pool and
return the fresh handle. -/
def getOrCreateAddress : List Str → Str → Nat × List Str
  | [], addr => (0, [addr])
  | a :: rest, addr =>
    if a = addr then (0, a :: rest)
    else
      let r := getOrCreateAddress rest addr
      (r.1 + 1, a :: r.2)

/-- Model of unordered_map::find on the blocklist: the unique binding of a
key, if any. -/
def assocFind (bl : List (Str × Nat)) (k : Str) : Option Nat :=
  match bl with
  | [] => none
  | p :: rest => if p.1 = k then some p.2 else assocFind rest k

/-- Model of blocklist[domain] = entry: insertion replaces any previous
binding of the same key. -/
def insertEntry (k : Str) (h : Nat) (bl : List (Str × Nat)) : List (Str × Nat) :=
  (k, h) :: bl.filter (fun p => p.1 ≠ k)

/-- Characters stripped by line.erase(line.find_last_not_of(" \t\r\n") + 1). -/
def isTrailWS (c : Char) : Bool :=
  c == ' ' || c == '\t' || c == '\r' || c == '\n'

/-- Whitespace of operator>> extraction (isspace in the C locale):
space, tab, newline, vertical tab, form feed, carriage return. -/
def isStreamWS (c : Char) : Bool :=
  c == ' ' || c == '\t' || c == '\n' || c == '\x0B' || c == '\x0C' || c == '\r'

/-- Trailing-whitespace removal performed on each line before tokenizing. -/
def stripTrailing (l : Str) : Str :=
  (l.reverse.dropWhile isTrailWS).reverse

/-- Whitespace-separated tokens of a line, as extracted one by one by
istringstream operator>>. -/
def tokensOf (l : Str) : List Str :=
  (l.splitOnP isStreamWS).filter (fun t => !t.isEmpty)

/-- ASCII lowercasing, the effect of std::transform with ::tolower. -/
def lowerStr (s : Str) : Str := s.map Char.toLower

/-- Parse one line of the loop body of loadBlocklist: skip the line when it
is empty or starts with a comment character, otherwise strip trailing
whitespace and extract an address and a domain token; iss >> address >>
domain succeeds exactly when at least two tokens are present, and reads the
first two.  On success the result is the lowercased domain key paired with
the address string. -/
def parseRule (line : Str) : Option (Str × Str) :=
  if line.isEmpty || line.head? == some '#' then none
  else
    match tokensOf (stripTrailing line) with
    | address :: domain :: _ => some (lowerStr domain, address)
    | _ => none

/-- One iteration of the parsing loop of loadBlocklist, acting on the
(blocklist, addressPool) pair being built. -/
def processLine (acc : List (Str × Nat) × List Str) (line : Str) :
    List (Str × Nat) × List Str :=
  match parseRule line with
  | none => acc
  | some r =>
    let g := getOrCreateAddress acc.2 r.2
    (insertEntry r.1 g.1 acc.1, g.2)

/-- Model of loadBlocklist.  statRes is the result of the initial stat and
contents the result of opening and reading the file line by line; none
models failure.  On either failure the method returns early and the state is
untouched; otherwise the file metadata is recorded, both maps are cleared,
and every line is processed in order. -/
def loadBlocklist (st : BlocklistManager) (statRes : Option FileInfo)
    (contents : Option (List Str)) : BlocklistManager :=
  match statRes with
  | none => st
  | some fs =>
    match contents with
    | none => st
    | some ls =>
      let r := ls.foldl processLine ([], [])
      ⟨r.1, r.2, fs⟩

/-- State of a freshly constructed manager before loadBlocklist runs: empty
maps and a zero FileInfo. -/
def initialState : BlocklistManager := ⟨[], [], ⟨0, 0, 0⟩⟩

/-- Constructor model: the private constructor starts from the empty state
and immediately runs loadBlocklist. -/
def mkManager (statRes : Option FileInfo) (contents : Option (List Str)) :
    BlocklistManager :=
  loadBlocklist initialState statRes contents

/-- Wildcard phase of lookupDomain: scan the positions of the domain left to
right; at each separator, look up the suffix of the domain starting at that
separator (dot included) and stop at the first hit. -/
def wildcardScan (bl : List (Str × Nat)) : Str → Option Nat
  | [] => none
  | c :: rest =>
    if c = '.' then
      match assocFind bl (c :: rest) with
      | some h => some h
      | none => wildcardScan bl rest
    else wildcardScan bl rest

/-- Model of lookupDomain: exact match first, then the wildcard scan, else
(false, empty string). -/
def lookupDomain (st : BlocklistManager) (domain : Str) : Bool × Str :=
  match assocFind st.blocklist domain with
  | some h => (true, derefAddr st.addressPool h)
  | none =>
    match wildcardScan st.blocklist domain with
    | some h => (true, derefAddr st.addressPool h)
    | none => (false, [])

/-- Model of checkDomain on a fixed state, the lookup semantics of the
public resolve operation: normalize the queried domain to lowercase and run
lookupDomain.  (The reload orchestration that may precede the lookup only
replaces the state by a loadBlocklist result and is modelled separately by
loadBlocklist and shouldReload.) -/
def checkDomain (st : BlocklistManager) (domain : Str) : Bool × Str :=
  lookupDomain st (lowerStr domain)

/-- Model of getStats: the number of blocklist entries and the number of
pooled addresses. -/
def getStats (st : BlocklistManager) : Nat × Nat :=
  (st.blocklist.length, st.addressPool.length)

/-- Model of isFileStable: two further stats of the file, 1ms apart; stable
means both succeed and agree exactly on size and on the modification
timestamp, seconds and nanoseconds. -/
def isFileStable (statA statB : Option FileInfo) : Bool :=
  match statA with
  | none => false
  | some s1 =>
    match statB with
    | none => false
    | some s2 =>
      decide (s1.fileSize = s2.fileSize ∧ s1.modTimeSec = s2.modTimeSec ∧
        s1.modTimeNsec = s2.modTimeNsec)

/-- Model of shouldReload: statMain is the first stat; if it fails report
no reload; if the stat agrees with the recorded snapshot report no reload;
otherwise reload exactly when the stability check passes. -/
def shouldReload (last : FileInfo) (statMain statA statB : Option FileInfo) : Bool :=
  match statMain with
  | none => false
  | some fs =>
    if !decide (fs.modTimeSec ≠ last.modTimeSec ∨
        fs.modTimeNsec ≠ last.modTimeNsec ∨ fs.fileSize ≠ last.fileSize) then false
    else if !isFileStable statA statB then false
    else true

/-
Spec-side definitions used to state the claims.
-/

/-- Wildcard candidates as the specification phrases them: for every
position i of a separator within the domain, the substring starting at that
separator, inclusive, scanning positions left to right. -/
def specCandidates (d : Str) : List Str :=
  (List.range d.length).filterMap
    (fun i => if d.getD i ' ' = '.' then some (d.drop i) else none)

/-- Lookup as the specification phrases it: exact phase first, then the
first hit among the wildcard candidates in order, else not blocked. -/
def lookupSpec (st : BlocklistManager) (domain : Str) : Bool × Str :=
  match assocFind st.blocklist domain with
  | some h => (true, derefAddr st.addressPool h)
  | none =>
    match (specCandidates domain).findSome? (fun cand => assocFind st.blocklist cand) with
    | some h => (true, derefAddr st.addressPool h)
    | none => (false, [])

/-- Rules accepted by the parser, in file order, as (key, address) pairs. -/
def acceptedRules (lines : List Str) : List (Str × Str) :=
  lines.filterMap parseRule

/-- Abstract view of the state being built by the parsing loop: each entry
with its handle dereferenced to the address string it denotes. -/
def simpleOf (acc : List (Str × Nat) × List Str) : List (Str × Str) :=
  acc.1.map (fun p => (p.1, derefAddr acc.2 p.2))

/-- Abstract view of one parsing-loop iteration: insert the accepted rule,
replacing any previous binding of its key. -/
def simpleStep (sbl : List (Str × Str)) (line : Str) : List (Str × Str) :=
  match parseRule line with
  | none => sbl
  | some r => (r.1, r.2) :: sbl.filter (fun p => p.1 ≠ r.1)

/-- Find on the abstract view. -/
def sAssocFind (sbl : List (Str × Str)) (k : Str) : Option Str :=
  match sbl with
  | [] => none
  | p :: rest => if p.1 = k then some p.2 else sAssocFind rest k

/-- Every handle stored in the blocklist under construction is a valid
position of the address pool under construction. -/
def HandlesValid (acc : List (Str × Nat) × List Str) : Prop :=
  ∀ p ∈ acc.1, p.2 < acc.2.length

/-
Lemmas about the address pool.
-/

theorem derefAddr_append_left (l t : List Str) (h : Nat) (hl : h < l.length) :
    derefAddr (l ++ t) h = derefAddr l h := by
  induction l generalizing h with
  | nil => simp at hl
  | cons a rest ih =>
    cases h with
    | zero => rfl
    | succ n =>
      simp only [List.length_cons, Nat.succ_lt_succ_iff] at hl
      simpa [derefAddr] using ih n hl

theorem derefAddr_mem (l : List Str) (h : Nat) (hl : h < l.length) :
    derefAddr l h ∈ l := by
  induction l generalizing h with
  | nil => simp at hl
  | cons a rest ih =>
    cases h with
    | zero => simp [derefAddr]
    | succ n =>
      simp only [List.length_cons, Nat.succ_lt_succ_iff] at hl
      exact List.mem_cons_of_mem a (ih n hl)

theorem nodup_derefAddr_inj (l : List Str) (i j : Nat) (hn : l.Nodup)
    (hi : i < l.length) (hj : j < l.length)
    (he : derefAddr l i = derefAddr l j) : i = j := by
  induction l generalizing i j with
  | nil => simp at hi
  | cons a rest ih =>
    rw [List.nodup_cons] at hn
    cases i with
    | zero =>
      cases j with
      | zero => rfl
      | succ m =>
        simp only [List.length_cons, Nat.succ_lt_succ_iff] at hj
        have h2 : a = derefAddr rest m := he
        have : a ∈ rest := by rw [h2]; exact derefAddr_mem rest m hj
        exact absurd this hn.1
    | succ n =>
      cases j with
      | zero =>
        simp only [List.length_cons, Nat.succ_lt_succ_iff] at hi
        have h2 : a = derefAddr rest n := he.symm
        have : a ∈ rest := by rw [h2]; exact derefAddr_mem rest n hi
        exact absurd this hn.1
      | succ m =>
        simp only [List.length_cons, Nat.succ_lt_succ_iff] at hi hj
        exact congrArg Nat.succ (ih n m hn.2 hi hj he)

theorem getOrCreateAddress_pool (pool : List Str) (addr : Str) :
    (getOrCreateAddress pool addr).2 =
      pool ++ (if addr ∈ pool then [] else [addr]) := by
  induction pool with
  | nil => simp [getOrCreateAddress]
  | cons a rest ih =>
    by_cases h : a = addr
    · simp [getOrCreateAddress, h]
    · have hne : addr ≠ a := fun he => h he.symm
      simp [getOrCreateAddress, h, ih, List.mem_cons, hne]

theorem getOrCreateAddress_deref (pool : List Str) (addr : Str) :
    derefAddr (getOrCreateAddress pool addr).2 (getOrCreateAddress pool addr).1
      = addr := by
  induction pool with
  | nil => rfl
  | cons a rest ih =>
    by_cases h : a = addr
    · simp [getOrCreateAddress, h, derefAddr]
    · simpa [getOrCreateAddress, h, derefAddr] using ih

theorem getOrCreateAddress_lt (pool : List Str) (addr : Str) :
    (getOrCreateAddress pool addr).1 < (getOrCreateAddress pool addr).2.length := by
  induction pool with
  | nil => simp [getOrCreateAddress]
  | cons a rest ih =>
    by_cases h : a = addr
    · simp [getOrCreateAddress, h]
    · simpa [getOrCreateAddress, h, Nat.succ_lt_succ_iff] using ih

theorem nodup_append_single (l : List Str) (a : Str) (hn : l.Nodup)
    (ha : a ∉ l) : (l ++ [a]).Nodup := by
  induction l with
  | nil => simp
  | cons b rest ih =>
    rw [List.nodup_cons] at hn
    have hb : a ∉ rest := fun h => ha (List.mem_cons_of_mem b h)
    have hab : b ≠ a := fun h => ha (h ▸ List.mem_cons_self b rest)
    rw [List.cons_append, List.nodup_cons]
    refine ⟨?_, ih hn.2 hb⟩
    rw [List.mem_append]
    rintro (hmem | hmem)
    · exact hn.1 hmem
    · rw [List.mem_singleton] at hmem
      exact hab hmem

theorem getOrCreateAddress_nodup (pool : List Str) (addr : Str)
    (hn : pool.Nodup) : (getOrCreateAddress pool addr).2.Nodup := by
  rw [getOrCreateAddress_pool]
  by_cases h : addr ∈ pool
  · simpa [h]
  · simpa [h] using nodup_append_single pool addr hn h

theorem getOrCreateAddress_mem_pool (pool : List Str) (addr a : Str) :
    a ∈ (getOrCreateAddress pool addr).2 ↔ a ∈ pool ∨ a = addr := by
  rw [getOrCreateAddress_pool]
  by_cases h : addr ∈ pool
  · simp only [h, if_true, List.append_nil]
    exact ⟨fun hm => Or.inl hm, fun hm => hm.elim id (fun he => he ▸ h)⟩
  · simp [h, List.mem_append]

/-
Lemmas about one iteration of the parsing loop.
-/

theorem processLine_pool_ext (acc : List (Str × Nat) × List Str) (line : Str) :
    ∃ t, (processLine acc line).2 = acc.2 ++ t := by
  unfold processLine
  cases h : parseRule line with
  | none => exact ⟨[], by simp⟩
  | some r =>
    refine ⟨if r.2 ∈ acc.2 then [] else [r.2], ?_⟩
    simpa using getOrCreateAddress_pool acc.2 r.2

theorem processLine_valid (acc : List (Str × Nat) × List Str) (line : Str)
    (hv : HandlesValid acc) : HandlesValid (processLine acc line) := by
  unfold processLine
  cases h : parseRule line with
  | none => exact hv
  | some r =>
    intro p hp
    simp only [insertEntry, List.mem_cons] at hp
    cases hp with
    | inl he => simpa [he] using getOrCreateAddress_lt acc.2 r.2
    | inr hm =>
      have hlen : acc.2.length ≤ (getOrCreateAddress acc.2 r.2).2.length := by
        rw [getOrCreateAddress_pool]
        simp [List.length_append]
      exact Nat.lt_of_lt_of_le (hv p (List.mem_of_mem_filter hm)) hlen

theorem processLine_nodup (acc : List (Str × Nat) × List Str) (line : Str)
    (hn : acc.2.Nodup) : (processLine acc line).2.Nodup := by
  unfold processLine
  cases h : parseRule line with
  | none => exact hn
  | some r => exact getOrCreateAddress_nodup acc.2 r.2 hn

theorem map_deref_filter (bl : List (Str × Nat)) (pool : List Str) (k : Str) :
    (bl.filter (fun p => p.1 ≠ k)).map (fun p => (p.1, derefAddr pool p.2)) =
      (bl.map (fun p => (p.1, derefAddr pool p.2))).filter (fun p => p.1 ≠ k) := by
  induction bl with
  | nil => rfl
  | cons p rest ih =>
    simp only [ne_eq, List.filter_cons, List.map_cons, decide_not] at ih ⊢
    by_cases h : p.1 = k
    · simpa [h] using ih
    · simp [h, ih]

theorem simpleOf_pool_ext (bl : List (Str × Nat)) (pool t : List Str)
    (hv : ∀ p ∈ bl, p.2 < pool.length) :
    bl.map (fun p => (p.1, derefAddr (pool ++ t) p.2)) =
      bl.map (fun p => (p.1, derefAddr pool p.2)) := by
  induction bl with
  | nil => rfl
  | cons p rest ih =>
    have hp : p.2 < pool.length := hv p (List.mem_cons_self p rest)
    have hrest : ∀ q ∈ rest, q.2 < pool.length :=
      fun q hq => hv q (List.mem_cons_of_mem p hq)
    simp [derefAddr_append_left pool t p.2 hp, ih hrest]

theorem processLine_sim (acc : List (Str × Nat) × List Str) (line : Str)
    (hv : HandlesValid acc) :
    simpleOf (processLine acc line) = simpleStep (simpleOf acc) line := by
  unfold processLine simpleStep
  cases h : parseRule line with
  | none => rfl
  | some r =>
    obtain ⟨t, ht⟩ : ∃ t, (getOrCreateAddress acc.2 r.2).2 = acc.2 ++ t := by
      refine ⟨if r.2 ∈ acc.2 then [] else [r.2], ?_⟩
      simpa using getOrCreateAddress_pool acc.2 r.2
    simp only [simpleOf, insertEntry, List.map_cons]
    have h1 : derefAddr (getOrCreateAddress acc.2 r.2).2
        (getOrCreateAddress acc.2 r.2).1 = r.2 := getOrCreateAddress_deref acc.2 r.2
    rw [h1]
    have h2 : (acc.1.filter (fun p => p.1 ≠ r.1)).map
        (fun p => (p.1, derefAddr (getOrCreateAddress acc.2 r.2).2 p.2)) =
        (acc.1.filter (fun p => p.1 ≠ r.1)).map
        (fun p => (p.1, derefAddr acc.2 p.2)) := by
      rw [ht]
      exact simpleOf_pool_ext _ acc.2 t
        (fun p hp => hv p (List.mem_of_mem_filter hp))
    rw [h2, map_deref_filter]

/-
Lemmas about the whole parsing loop.
-/

theorem foldl_valid (lines : List Str) :
    ∀ acc, HandlesValid acc → HandlesValid (lines.foldl processLine acc) := by
  induction lines with
  | nil => exact fun acc hv => hv
  | cons l rest ih =>
    exact fun acc hv => ih (processLine acc l) (processLine_valid acc l hv)

theorem foldl_nodup (lines : List Str) :
    ∀ acc, (acc : List (Str × Nat) × List Str).2.Nodup →
      (lines.foldl processLine acc).2.Nodup := by
  induction lines with
  | nil => exact fun acc hn => hn
  | cons l rest ih =>
    exact fun acc hn => ih (processLine acc l) (processLine_nodup acc l hn)

theorem foldl_sim (lines : List Str) :
    ∀ acc, HandlesValid acc →
      simpleOf (lines.foldl processLine acc) =
        lines.foldl simpleStep (simpleOf acc) := by
  induction lines with
  | nil => exact fun acc _ => rfl
  | cons l rest ih =>
    intro acc hv
    rw [List.foldl_cons, List.foldl_cons,
      ih (processLine acc l) (processLine_valid acc l hv),
      processLine_sim acc l hv]

/-
Last-wins semantics on the abstract view.
-/

theorem simpleStep_none (sbl : List (Str × Str)) (line : Str)
    (hp : parseRule line = none) : simpleStep sbl line = sbl := by
  unfold simpleStep
  rw [hp]

theorem simpleStep_some (sbl : List (Str × Str)) (line : Str) (r : Str × Str)
    (hp : parseRule line = some r) :
    simpleStep sbl line = (r.1, r.2) :: sbl.filter (fun p => p.1 ≠ r.1) := by
  unfold simpleStep
  rw [hp]

theorem sAssocFind_filter_ne (sbl : List (Str × Str)) (k k0 : Str)
    (h : k ≠ k0) :
    sAssocFind (sbl.filter (fun p => p.1 ≠ k0)) k = sAssocFind sbl k := by
  induction sbl with
  | nil => rfl
  | cons p rest ih =>
    rw [List.filter_cons]
    by_cases hp : p.1 = k0
    · rw [if_neg (by simp [hp])]
      have hpk : ¬ p.1 = k := fun he => h (by rw [← he, hp])
      rw [ih]
      conv_rhs => rw [sAssocFind]
      rw [if_neg hpk]
    · rw [if_pos (by simp [hp])]
      by_cases hpk : p.1 = k
      · rw [sAssocFind, if_pos hpk]
        conv_rhs => rw [sAssocFind]
        rw [if_pos hpk]
      · rw [sAssocFind, if_neg hpk, ih]
        conv_rhs => rw [sAssocFind]
        rw [if_neg hpk]

theorem sAssocFind_foldl_last (lines : List Str) (sbl : List (Str × Str))
    (k : Str) :
    sAssocFind (lines.foldl simpleStep sbl) k =
      (((acceptedRules lines).filter (fun r => r.1 = k)).getLast?.map
        (fun r => r.2)).or (sAssocFind sbl k) := by
  induction lines using List.reverseRecOn generalizing sbl with
  | nil => simp [acceptedRules]
  | append_singleton rest l ih =>
    rw [List.foldl_append, List.foldl_cons, List.foldl_nil]
    cases hp : parseRule l with
    | none =>
      rw [simpleStep_none _ _ hp, ih]
      have hacc : acceptedRules (rest ++ [l]) = acceptedRules rest := by
        simp [acceptedRules, List.filterMap_append, List.filterMap_cons, hp]
      rw [hacc]
    | some r =>
      rw [simpleStep_some _ _ r hp]
      have hacc : acceptedRules (rest ++ [l]) = acceptedRules rest ++ [r] := by
        simp [acceptedRules, List.filterMap_append, List.filterMap_cons, hp]
      rw [hacc, List.filter_append]
      by_cases hk : r.1 = k
      · have hfr : List.filter (fun r => r.1 = k) [r] = [r] := by simp [hk]
        rw [hfr, List.getLast?_concat]
        rw [sAssocFind, if_pos hk]
        rfl
      · have hfr : List.filter (fun r => r.1 = k) [r] = [] := by simp [hk]
        rw [hfr, List.append_nil]
        have hkr : k ≠ r.1 := fun he => hk he.symm
        rw [sAssocFind, if_neg hk, sAssocFind_filter_ne _ k r.1 hkr, ih]

theorem sAssocFind_simpleOf (acc : List (Str × Nat) × List Str) (k : Str) :
    sAssocFind (simpleOf acc) k = (assocFind acc.1 k).map (derefAddr acc.2) := by
  obtain ⟨bl, pool⟩ := acc
  induction bl with
  | nil => rfl
  | cons p rest ih =>
    by_cases h : p.1 = k
    · simp only [simpleOf, List.map_cons]
      rw [sAssocFind, if_pos h, assocFind, if_pos h]
      rfl
    · simp only [simpleOf, List.map_cons] at ih ⊢
      rw [sAssocFind, if_neg h, assocFind, if_neg h, ih]

/-
Characterizing the wildcard scan by the candidate list of the specification.
-/

theorem specCandidates_nil : specCandidates [] = [] := by
  simp [specCandidates]

theorem specCandidates_cons (c : Char) (rest : Str) :
    specCandidates (c :: rest) =
      (if c = '.' then [c :: rest] else []) ++ specCandidates rest := by
  unfold specCandidates
  rw [List.length_cons, List.range_succ_eq_map, List.filterMap_cons]
  have hfun : (fun i => if (c :: rest).getD i ' ' = '.'
        then some ((c :: rest).drop i) else none) ∘ Nat.succ =
      (fun i => if rest.getD i ' ' = '.' then some (rest.drop i) else none) := by
    funext i
    simp [Function.comp, List.getD_cons_succ, List.drop_succ_cons]
  have h2 : List.filterMap (fun i => if (c :: rest).getD i ' ' = '.'
        then some ((c :: rest).drop i) else none)
        ((List.range rest.length).map Nat.succ) =
      List.filterMap (fun i => if rest.getD i ' ' = '.'
        then some (rest.drop i) else none) (List.range rest.length) := by
    rw [List.filterMap_map, hfun]
  rw [h2]
  have h1 : ((c :: rest).getD 0 ' ') = c := rfl
  by_cases hc : c = '.'
  · rw [h1]
    rw [if_pos hc, if_pos hc]
    rfl
  · rw [h1]
    rw [if_neg hc, if_neg hc]
    rfl

theorem wildcardScan_eq_spec (bl : List (Str × Nat)) (d : Str) :
    wildcardScan bl d =
      (specCandidates d).findSome? (fun cand => assocFind bl cand) := by
  induction d with
  | nil => simp [wildcardScan, specCandidates_nil]
  | cons c rest ih =>
    rw [specCandidates_cons]
    by_cases hc : c = '.'
    · rw [if_pos hc, List.singleton_append, List.findSome?_cons]
      unfold wildcardScan
      rw [if_pos hc, ih]
      cases assocFind bl (c :: rest) <;> rfl
    · rw [if_neg hc, List.nil_append]
      unfold wildcardScan
      rw [if_neg hc, ih]

theorem specCandidates_no_dot (d : Str) (h : '.' ∉ d) : specCandidates d = [] := by
  induction d with
  | nil => exact specCandidates_nil
  | cons c rest ih =>
    rw [specCandidates_cons]
    have hc : c ≠ '.' := fun he => h (he ▸ List.mem_cons_self c rest)
    rw [if_neg hc, List.nil_append]
    exact ih (fun hm => h (List.mem_cons_of_mem c hm))

/-
Remaining helper lemmas.
-/

theorem toLower_idem (c : Char) : c.toLower.toLower = c.toLower := by
  show (if c.toNat ≥ 65 ∧ c.toNat ≤ 90 then Char.ofNat (c.toNat + 32) else c).toLower
      = if c.toNat ≥ 65 ∧ c.toNat ≤ 90 then Char.ofNat (c.toNat + 32) else c
  by_cases h : c.toNat ≥ 65 ∧ c.toNat ≤ 90
  · rw [if_pos h]
    have hv : (c.toNat + 32).isValidChar := Or.inl (by omega)
    have ht : (Char.ofNat (c.toNat + 32)).toNat = c.toNat + 32 := by
      rw [Char.ofNat, dif_pos hv]
      rfl
    show (if _ ≥ 65 ∧ _ ≤ 90 then _ else _) = _
    rw [ht, if_neg (by omega)]
  · rw [if_neg h]
    show (if c.toNat ≥ 65 ∧ c.toNat ≤ 90 then Char.ofNat (c.toNat + 32) else c) = c
    rw [if_neg h]

theorem lowerStr_idem (s : Str) : lowerStr (lowerStr s) = lowerStr s := by
  unfold lowerStr
  rw [List.map_map]
  exact List.map_congr_left (fun a _ => toLower_idem a)

theorem wildcardScan_nil (d : Str) : wildcardScan [] d = none := by
  induction d with
  | nil => rfl
  | cons c rest ih =>
    unfold wildcardScan
    by_cases hc : c = '.'
    · rw [if_pos hc]
      exact ih
    · rw [if_neg hc]
      exact ih

theorem processLine_skip (acc : List (Str × Nat) × List Str) (line : Str)
    (hp : parseRule line = none) : processLine acc line = acc := by
  unfold processLine
  rw [hp]

theorem parseRule_short (line : Str)
    (h : (tokensOf (stripTrailing line)).length < 2 ∨ line.isEmpty = true ∨
      line.head? = some '#') : parseRule line = none := by
  unfold parseRule
  by_cases hc : (line.isEmpty || line.head? == some '#') = true
  · rw [if_pos hc]
  · rw [if_neg hc]
    rcases h with h | h | h
    · cases ht : tokensOf (stripTrailing line) with
      | nil => rfl
      | cons a rest =>
        cases rest with
        | nil => rfl
        | cons b rest2 =>
          rw [ht] at h
          simp at h
          omega
    · exact absurd (by simp [h]) hc
    · exact absurd (by simp [h]) hc

theorem processLine_pool_mem (acc : List (Str × Nat) × List Str) (line : Str)
    (a : Str) :
    a ∈ (processLine acc line).2 ↔
      a ∈ acc.2 ∨ ∃ r, parseRule line = some r ∧ a = r.2 := by
  unfold processLine
  cases hp : parseRule line with
  | none => simp [hp]
  | some r =>
    simp only [hp]
    rw [getOrCreateAddress_mem_pool]
    constructor
    · rintro (hm | hm)
      · exact Or.inl hm
      · exact Or.inr ⟨r, rfl, hm⟩
    · rintro (hm | ⟨r2, hr2, he⟩)
      · exact Or.inl hm
      · rw [Option.some_inj] at hr2
        exact Or.inr (hr2 ▸ he)

theorem foldl_pool_mem (lines : List Str) :
    ∀ (acc : List (Str × Nat) × List Str) (a : Str),
      a ∈ (lines.foldl processLine acc).2 ↔
        a ∈ acc.2 ∨ a ∈ (acceptedRules lines).map (fun r => r.2) := by
  induction lines with
  | nil => simp [acceptedRules]
  | cons l rest ih =>
    intro acc a
    rw [List.foldl_cons, ih, processLine_pool_mem]
    cases hp : parseRule l with
    | none =>
      simp only [acceptedRules, List.filterMap_cons, hp]
      constructor
      · rintro ((hm | ⟨r, hr, _⟩) | hm)
        · exact Or.inl hm
        · exact absurd hr (by simp [hp])
        · exact Or.inr hm
      · rintro (hm | hm)
        · exact Or.inl (Or.inl hm)
        · exact Or.inr hm
    | some r =>
      simp only [acceptedRules, List.filterMap_cons, hp, List.map_cons,
        List.mem_cons]
      constructor
      · rintro ((hm | ⟨r2, hr2, he⟩) | hm)
        · exact Or.inl hm
        · rw [Option.some_inj] at hr2
          exact Or.inr (Or.inl (hr2 ▸ he))
        · exact Or.inr (Or.inr hm)
      · rintro (hm | he | hm)
        · exact Or.inl (Or.inl hm)
        · exact Or.inl (Or.inr ⟨r, rfl, he⟩)
        · exact Or.inr hm

theorem handlesValid_empty : HandlesValid ([], []) := by
  intro p hp
  cases hp

/-
Concrete states used by the claims.
-/

/-- Arbitrary file metadata for the concrete loads. -/
def sampleInfo : FileInfo := ⟨10, 20, 30⟩

/-- Manager loaded from a file holding the single wildcard rule
0.0.0.0 .example.com. -/
def wildSt : BlocklistManager :=
  mkManager (some sampleInfo) (some [str "0.0.0.0 .example.com"])

/-- Manager loaded from a file holding the single exact rule
0.0.0.0 example.com. -/
def exactSt : BlocklistManager :=
  mkManager (some sampleInfo) (some [str "0.0.0.0 example.com"])

/-- Manager loaded from a file whose one content line carries three
whitespace-separated fields. -/
def threeTokSt : BlocklistManager :=
  mkManager (some sampleInfo) (some [str "1.2.3.4 x.com junk"])

/-- Claim C1, counterexample: with the wildcard rule (0.0.0.0, .example.com)
loaded (its key is bound in the index to the pooled address 0.0.0.0),
resolve of the bare domain example.com returns (false, empty string), not
(true, 0.0.0.0) as the claim states: the wildcard phase of lookupDomain only
forms the candidate .com from example.com, never .example.com. -/
theorem C1_counterexample :
    assocFind wildSt.blocklist (str ".example.com") = some 0 ∧
    derefAddr wildSt.addressPool 0 = str "0.0.0.0" ∧
    checkDomain wildSt (str "example.com") = (false, []) ∧
    checkDomain wildSt (str "example.com") ≠ (true, str "0.0.0.0") := by
  refine ⟨?_, ?_, ?_, ?_⟩ <;> decide

/-- Claim C1, amended: for every loaded wildcard rule whose key is
.example.com with address addr, resolve of every sub-domain such as
ads.example.com and a.b.example.com returns (true, addr), but resolve of the
bare domain example.com returns (false, empty string) when no other rule
matches it.  Stated over an arbitrary handle and pool for the general part,
plus the concretely loaded rule file. -/
theorem C1_wildcard_matches_subdomains (h : Nat) (pool : List Str)
    (meta : FileInfo) :
    lookupDomain ⟨[(str ".example.com", h)], pool, meta⟩ (str "ads.example.com")
      = (true, derefAddr pool h) ∧
    lookupDomain ⟨[(str ".example.com", h)], pool, meta⟩ (str "a.b.example.com")
      = (true, derefAddr pool h) ∧
    lookupDomain ⟨[(str ".example.com", h)], pool, meta⟩ (str "example.com")
      = (false, []) ∧
    checkDomain wildSt (str "ads.example.com") = (true, str "0.0.0.0") ∧
    checkDomain wildSt (str "a.b.example.com") = (true, str "0.0.0.0") :=
  ⟨rfl, rfl, rfl, by decide, by decide⟩

/-- Claim C2: on every index state and every domain string, lookupDomain
first tries the exact key and otherwise scans, left to right, the candidate
suffixes of the domain that start at a separator position, returning the
first hit and (false, empty string) when there is none; a domain containing
no separator has no wildcard candidates at all. -/
theorem C2_lookup_algorithm (st : BlocklistManager) (d : Str) :
    lookupDomain st d = lookupSpec st d ∧
    ('.' ∉ d → specCandidates d = []) :=
  ⟨by unfold lookupDomain lookupSpec; rw [wildcardScan_eq_spec],
   specCandidates_no_dot d⟩

/-- Witness for C2_lookup_algorithm at a concrete state and a concrete
separator-free domain. -/
theorem C2_lookup_algorithm_witness :
    lookupDomain wildSt (str "localhost") = lookupSpec wildSt (str "localhost") ∧
    specCandidates (str "localhost") = [] :=
  ⟨(C2_lookup_algorithm wildSt (str "localhost")).1,
   (C2_lookup_algorithm wildSt (str "localhost")).2 (by decide)⟩

/-- Claim C3, counterexample: the line 1.2.3.4 x.com junk tokenizes as three
whitespace-separated fields, so it does not tokenize as exactly two, yet the
parser does add an entry for it: the first two fields are used and the rest
ignored, and x.com resolves to 1.2.3.4 afterwards. -/
theorem C3_counterexample :
    (tokensOf (stripTrailing (str "1.2.3.4 x.com junk"))).length = 3 ∧
    threeTokSt.blocklist = [(str "x.com", 0)] ∧
    checkDomain threeTokSt (str "x.com") = (true, str "1.2.3.4") := by
  refine ⟨?_, ?_, ?_⟩ <;> decide

/-- Claim C3, amended: a content line that yields fewer than two
whitespace-separated fields after trailing-whitespace stripping, and likewise
every blank or comment line, adds no entry, and deleting it from the file
does not change the loaded state: all other lines are still loaded exactly
as without it.  (Lines with two or more fields are accepted, using the first
two fields.) -/
theorem C3_malformed_lines_skipped (meta : FileInfo) (pre post : List Str)
    (line : Str)
    (h : (tokensOf (stripTrailing line)).length < 2 ∨ line.isEmpty = true ∨
      line.head? = some '#') :
    loadBlocklist initialState (some meta) (some (pre ++ line :: post)) =
      loadBlocklist initialState (some meta) (some (pre ++ post)) := by
  have hp : parseRule line = none := parseRule_short line h
  have hfold : (pre ++ line :: post).foldl processLine ([], []) =
      (pre ++ post).foldl processLine ([], []) := by
    rw [List.foldl_append, List.foldl_append, List.foldl_cons,
      processLine_skip _ _ hp]
  show BlocklistManager.mk _ _ _ = BlocklistManager.mk _ _ _
  rw [hfold]

/-- Witness for C3_malformed_lines_skipped: dropping a one-token line from a
three-line file leaves the loaded state unchanged. -/
theorem C3_malformed_lines_skipped_witness :
    loadBlocklist initialState (some sampleInfo)
        (some [str "0.0.0.0 a.com", str "bad", str "9.9.9.9 b.com"]) =
      loadBlocklist initialState (some sampleInfo)
        (some [str "0.0.0.0 a.com", str "9.9.9.9 b.com"]) :=
  C3_malformed_lines_skipped sampleInfo [str "0.0.0.0 a.com"]
    [str "9.9.9.9 b.com"] (str "bad") (by decide)

/-- Claim C4: after a load, the exact binding of every key, dereferenced
through the pool, is the address of the last accepted line carrying that
key; in particular loading 0.0.0.0 x.com and then 9.9.9.9 x.com yields
resolve of x.com equal to (true, 9.9.9.9). -/
theorem C4_last_line_wins (meta : FileInfo) (lines : List Str) (k : Str) :
    (assocFind (loadBlocklist initialState (some meta) (some lines)).blocklist
        k).map
        (derefAddr (loadBlocklist initialState (some meta)
          (some lines)).addressPool) =
      ((acceptedRules lines).filter (fun r => r.1 = k)).getLast?.map
        (fun r => r.2) ∧
    checkDomain (mkManager (some meta)
        (some [str "0.0.0.0 x.com", str "9.9.9.9 x.com"])) (str "x.com") =
      (true, str "9.9.9.9") := by
  constructor
  · have h1 := sAssocFind_simpleOf (List.foldl processLine ([], []) lines) k
    have h2 := foldl_sim lines ([], []) handlesValid_empty
    have h3 := sAssocFind_foldl_last lines (simpleOf ([], [])) k
    show (assocFind (List.foldl processLine ([], []) lines).1 k).map
        (derefAddr (List.foldl processLine ([], []) lines).2) = _
    rw [← h1, h2, h3]
    have h4 : sAssocFind (simpleOf ([], [])) k = none := rfl
    rw [h4, Option.or_none]
  · rfl

/-- Claim C5: resolve is total and fails open.  Whenever neither the exact
key nor any wildcard candidate of the normalized domain is present, the
answer is (false, empty string); and when construction could not stat or
could not open the rule file, the state is the empty initial state and every
resolve answers (false, empty string). -/
theorem C5_fail_open (st : BlocklistManager) (d : Str)
    (statRes : Option FileInfo) (contents : Option (List Str)) :
    (assocFind st.blocklist (lowerStr d) = none →
      wildcardScan st.blocklist (lowerStr d) = none →
      checkDomain st d = (false, [])) ∧
    checkDomain (mkManager none contents) d = (false, []) ∧
    checkDomain (mkManager statRes none) d = (false, []) := by
  refine ⟨?_, ?_, ?_⟩
  · intro h1 h2
    unfold checkDomain lookupDomain
    rw [h1, h2]
  · show checkDomain initialState d = (false, [])
    unfold checkDomain lookupDomain
    have hb : assocFind initialState.blocklist (lowerStr d) = none := rfl
    have hw : wildcardScan initialState.blocklist (lowerStr d) = none :=
      wildcardScan_nil (lowerStr d)
    rw [hb, hw]
  · have hm : mkManager statRes none = initialState := by
      cases statRes <;> rfl
    rw [hm]
    unfold checkDomain lookupDomain
    have hb : assocFind initialState.blocklist (lowerStr d) = none := rfl
    have hw : wildcardScan initialState.blocklist (lowerStr d) = none :=
      wildcardScan_nil (lowerStr d)
    rw [hb, hw]

/-- Witness for C5_fail_open at concrete inputs: an empty index, a failed
initial stat, and a failed open all answer (false, empty string). -/
theorem C5_fail_open_witness :
    checkDomain initialState (str "example.com") = (false, []) ∧
    checkDomain (mkManager none (some [str "0.0.0.0 x.com"])) (str "x.com")
      = (false, []) ∧
    checkDomain (mkManager (some sampleInfo) none) (str "x.com")
      = (false, []) :=
  ⟨(C5_fail_open initialState (str "example.com") none none).1 (by decide)
      (by decide),
   (C5_fail_open initialState (str "x.com") none
      (some [str "0.0.0.0 x.com"])).2.1,
   (C5_fail_open initialState (str "x.com") (some sampleInfo) none).2.2⟩

/-- Claim C6: a reload whose stat fails or whose open fails returns the
state unchanged: blocklist, address pool and recorded file snapshot are all
exactly the previous ones; the index is never replaced by an empty one. -/
theorem C6_failed_reload_keeps_state (st : BlocklistManager)
    (statRes : Option FileInfo) (contents : Option (List Str))
    (h : statRes = none ∨ contents = none) :
    loadBlocklist st statRes contents = st := by
  rcases h with h | h
  · rw [h]
    rfl
  · rw [h]
    cases statRes <;> rfl

/-- Witness for C6_failed_reload_keeps_state: a failed stat at reload time
leaves a loaded state untouched. -/
theorem C6_failed_reload_keeps_state_witness :
    loadBlocklist exactSt none (some [str "1.1.1.1 y.com"]) = exactSt :=
  C6_failed_reload_keeps_state exactSt none (some [str "1.1.1.1 y.com"])
    (Or.inl rfl)

theorem getOrCreateAddress_fresh (pool : List Str) (addr : Str)
    (h : addr ∉ pool) : (getOrCreateAddress pool addr).1 = pool.length := by
  induction pool with
  | nil => rfl
  | cons a rest ih =>
    have ha : ¬ a = addr := fun he => h (he ▸ List.mem_cons_self a rest)
    have hr : addr ∉ rest := fun hm => h (List.mem_cons_of_mem a hm)
    simp only [getOrCreateAddress, ha, if_false, List.length_cons]
    rw [ih hr]

/-- Claim C7: shouldReload returns false when the stat fails; false when the
stated size and modification time (seconds and nanoseconds) equal the
recorded snapshot; and when they differ it returns true exactly when the two
further stats of the stability check both succeed and agree exactly on size
and on the modification timestamp down to nanoseconds, false otherwise. -/
theorem C7_shouldReload_decision (last meta : FileInfo) (s1 s2 : Option FileInfo) :
    shouldReload last none s1 s2 = false ∧
    (meta.fileSize = last.fileSize ∧ meta.modTimeSec = last.modTimeSec ∧
        meta.modTimeNsec = last.modTimeNsec →
      shouldReload last (some meta) s1 s2 = false) ∧
    (¬(meta.fileSize = last.fileSize ∧ meta.modTimeSec = last.modTimeSec ∧
        meta.modTimeNsec = last.modTimeNsec) →
      (shouldReload last (some meta) s1 s2 = true ↔
        ∃ a b, s1 = some a ∧ s2 = some b ∧ a.fileSize = b.fileSize ∧
          a.modTimeSec = b.modTimeSec ∧ a.modTimeNsec = b.modTimeNsec)) := by
  refine ⟨rfl, ?_, ?_⟩
  · intro h
    have hch : decide (meta.modTimeSec ≠ last.modTimeSec ∨
        meta.modTimeNsec ≠ last.modTimeNsec ∨
        meta.fileSize ≠ last.fileSize) = false := by
      simp [h.1, h.2.1, h.2.2]
    show (if !decide (meta.modTimeSec ≠ last.modTimeSec ∨
        meta.modTimeNsec ≠ last.modTimeNsec ∨
        meta.fileSize ≠ last.fileSize) then false
      else if !isFileStable s1 s2 then false else true) = false
    rw [hch]
    rfl
  · intro h
    have hch : decide (meta.modTimeSec ≠ last.modTimeSec ∨
        meta.modTimeNsec ≠ last.modTimeNsec ∨
        meta.fileSize ≠ last.fileSize) = true := by
      rw [decide_eq_true_eq]
      by_contra hc
      push_neg at hc
      exact h ⟨hc.2.2, hc.1, hc.2.1⟩
    show (if !decide (meta.modTimeSec ≠ last.modTimeSec ∨
        meta.modTimeNsec ≠ last.modTimeNsec ∨
        meta.fileSize ≠ last.fileSize) then false
      else if !isFileStable s1 s2 then false else true) = true ↔ _
    rw [hch]
    show (if !isFileStable s1 s2 then false else true) = true ↔ _
    cases s1 with
    | none =>
      constructor
      · intro hfalse
        exact absurd hfalse (by rw [isFileStable]; decide)
      · rintro ⟨a, b, ha, _⟩
        exact absurd ha (by intro hcon; cases hcon)
    | some a =>
      cases s2 with
      | none =>
        constructor
        · intro hfalse
          exact absurd hfalse (by rw [isFileStable]; simp)
        · rintro ⟨a2, b2, _, hb, _⟩
          exact absurd hb (by intro hcon; cases hcon)
      | some b =>
        by_cases hs : a.fileSize = b.fileSize ∧ a.modTimeSec = b.modTimeSec ∧
            a.modTimeNsec = b.modTimeNsec
        · have hst : isFileStable (some a) (some b) = true := by
            rw [isFileStable]
            simp [hs.1, hs.2.1, hs.2.2]
          rw [hst]
          constructor
          · intro _
            exact ⟨a, b, rfl, rfl, hs.1, hs.2.1, hs.2.2⟩
          · intro _
            rfl
        · have hst : isFileStable (some a) (some b) = false := by
            rw [isFileStable]
            simpa using hs
          rw [hst]
          constructor
          · intro hfalse
            cases hfalse
          · rintro ⟨a2, b2, ha2, hb2, he1, he2, he3⟩
            rw [Option.some_inj] at ha2 hb2
            subst ha2
            subst hb2
            exact absurd ⟨he1, he2, he3⟩ hs

/-- Witness for C7_shouldReload_decision at concrete stat results: an
unchanged snapshot reports no reload, and a changed snapshot with two
agreeing stability stats reports a reload. -/
theorem C7_shouldReload_decision_witness :
    shouldReload ⟨1, 2, 3⟩ (some ⟨1, 2, 3⟩) none none = false ∧
    shouldReload ⟨1, 2, 3⟩ (some ⟨1, 2, 4⟩) (some ⟨1, 2, 4⟩)
      (some ⟨1, 2, 4⟩) = true :=
  ⟨(C7_shouldReload_decision ⟨1, 2, 3⟩ ⟨1, 2, 3⟩ none none).2.1
      (by decide),
   ((C7_shouldReload_decision ⟨1, 2, 3⟩ ⟨1, 2, 4⟩ (some ⟨1, 2, 4⟩)
      (some ⟨1, 2, 4⟩)).2.2 (by decide)).2
      ⟨⟨1, 2, 4⟩, ⟨1, 2, 4⟩, rfl, rfl, rfl, rfl, rfl⟩⟩

/-- Claim C8: matching is case-insensitive in the domain argument: on every
fixed state, checkDomain of a domain equals checkDomain of its lowercase
form, and concretely EXAMPLE.com and example.com resolve identically when a
rule for example.com is loaded. -/
theorem C8_case_insensitive (st : BlocklistManager) (d : Str) :
    checkDomain st d = checkDomain st (lowerStr d) ∧
    checkDomain exactSt (str "EXAMPLE.com")
      = checkDomain exactSt (str "example.com") := by
  constructor
  · unfold checkDomain
    rw [lowerStr_idem]
  · decide

/-- Claim C9: interning an address returns the handle the pool already holds
for an equal string and otherwise creates and appends a fresh one; and after
any load, any two blocklist entries whose dereferenced address strings are
textually identical carry the same handle. -/
theorem C9_address_interning (pool : List Str) (addr : Str) (meta : FileInfo)
    (lines : List Str) :
    (addr ∈ pool →
      (getOrCreateAddress pool addr).2 = pool ∧
      derefAddr pool (getOrCreateAddress pool addr).1 = addr) ∧
    (addr ∉ pool →
      (getOrCreateAddress pool addr).2 = pool ++ [addr] ∧
      (getOrCreateAddress pool addr).1 = pool.length) ∧
    (∀ p ∈ (loadBlocklist initialState (some meta) (some lines)).blocklist,
      ∀ q ∈ (loadBlocklist initialState (some meta) (some lines)).blocklist,
      derefAddr (loadBlocklist initialState (some meta)
          (some lines)).addressPool p.2 =
        derefAddr (loadBlocklist initialState (some meta)
          (some lines)).addressPool q.2 →
      p.2 = q.2) := by
  refine ⟨?_, ?_, ?_⟩
  · intro hm
    have hpool : (getOrCreateAddress pool addr).2 = pool := by
      rw [getOrCreateAddress_pool, if_pos hm, List.append_nil]
    refine ⟨hpool, ?_⟩
    have hd := getOrCreateAddress_deref pool addr
    rw [hpool] at hd
    exact hd
  · intro hm
    constructor
    · rw [getOrCreateAddress_pool, if_neg hm]
    · exact getOrCreateAddress_fresh pool addr hm
  · intro p hp q hq he
    have hv : HandlesValid (List.foldl processLine ([], []) lines) :=
      foldl_valid lines ([], []) handlesValid_empty
    have hn : (List.foldl processLine ([], []) lines).2.Nodup :=
      foldl_nodup lines ([], []) List.nodup_nil
    exact nodup_derefAddr_inj (List.foldl processLine ([], []) lines).2
      p.2 q.2 hn (hv p hp) (hv q hq) he

/-- Witness for C9_address_interning at concrete inputs: interning an
already-pooled address keeps the pool and yields the handle of that string,
interning a fresh address appends it, and the two entries of a loaded
two-rule file sharing the address 0.0.0.0 carry the same handle. -/
theorem C9_address_interning_witness :
    ((getOrCreateAddress [str "0.0.0.0"] (str "0.0.0.0")).2 = [str "0.0.0.0"] ∧
      derefAddr [str "0.0.0.0"]
        (getOrCreateAddress [str "0.0.0.0"] (str "0.0.0.0")).1
        = str "0.0.0.0") ∧
    ((getOrCreateAddress [str "0.0.0.0"] (str "9.9.9.9")).2
        = [str "0.0.0.0"] ++ [str "9.9.9.9"] ∧
      (getOrCreateAddress [str "0.0.0.0"] (str "9.9.9.9")).1
        = [str "0.0.0.0"].length) ∧
    (str "a.com", 0).2 = ((str "b.com", 0) : Str × Nat).2 :=
  ⟨(C9_address_interning [str "0.0.0.0"] (str "0.0.0.0") sampleInfo []).1
      (by decide),
   (C9_address_interning [str "0.0.0.0"] (str "9.9.9.9") sampleInfo []).2.1
      (by decide),
   (C9_address_interning [] (str "0.0.0.0") sampleInfo
      [str "0.0.0.0 a.com", str "0.0.0.0 b.com"]).2.2
      (str "a.com", 0) (by decide) (str "b.com", 0) (by decide) (by decide)⟩

/-- Claim C10: a load interns the address of every accepted line and never
removes a pooled address, even when the rule that introduced it is later
overridden; the uniqueAddressCount of getStats is the number of distinct
address strings among the accepted lines; and concretely two lines with the
same key and different addresses yield ruleCount 1 and uniqueAddressCount 2. -/
theorem C10_pool_counts_distinct_addresses (meta : FileInfo) (lines : List Str) :
    (∀ r ∈ acceptedRules lines,
      r.2 ∈ (loadBlocklist initialState (some meta) (some lines)).addressPool) ∧
    (getStats (loadBlocklist initialState (some meta) (some lines))).2 =
      ((acceptedRules lines).map (fun r => r.2)).dedup.length ∧
    getStats (mkManager (some meta)
      (some [str "0.0.0.0 x.com", str "9.9.9.9 x.com"])) = (1, 2) := by
  refine ⟨?_, ?_, rfl⟩
  · intro r hr
    exact (foldl_pool_mem lines ([], []) r.2).2
      (Or.inr (List.mem_map_of_mem _ hr))
  · have hn : (List.foldl processLine ([], []) lines).2.Nodup :=
      foldl_nodup lines ([], []) List.nodup_nil
    have hmem : ∀ a, a ∈ (List.foldl processLine ([], []) lines).2 ↔
        a ∈ (acceptedRules lines).map (fun r => r.2) := by
      intro a
      rw [foldl_pool_mem]
      constructor
      · rintro (hm | hm)
        · cases hm
        · exact hm
      · exact fun hm => Or.inr hm
    show (List.foldl processLine ([], []) lines).2.length = _
    rw [← List.toFinset_card_of_nodup hn,
      ← List.toFinset_card_of_nodup
        (List.nodup_dedup ((acceptedRules lines).map (fun r => r.2)))]
    congr 1
    ext a
    rw [List.mem_toFinset, List.mem_toFinset, List.mem_dedup]
    exact hmem a

/-- Witness for C10_pool_counts_distinct_addresses: the address of the
overridden first line of the duplicate-key file is still pooled after the
load. -/
theorem C10_pool_counts_distinct_addresses_witness :
    str "0.0.0.0" ∈ (loadBlocklist initialState (some sampleInfo)
      (some [str "0.0.0.0 x.com", str "9.9.9.9 x.com"])).addressPool :=
  (C10_pool_counts_distinct_addresses sampleInfo
      [str "0.0.0.0 x.com", str "9.9.9.9 x.com"]).1
    (str "x.com", str "0.0.0.0") (by decide)
